import Mathlib

/-!
Verification of the GA4-to-bronze data pipeline (`src/pipeline/pipeline.py`,
`src/pipeline/loaders/s3_loader.py`, `src/pipeline/extractors/bigquery_extractor.py`).

The Python code is shallowly embedded: external collaborators (BigQuery client,
S3 client) are modelled as oracle behaviours indexed by the number of external
calls made so far, together with an explicit object-store state (the set of S3
keys present).  `datetime.date` objects are modelled by the `Date` structure
(year/month/day), whose arithmetic (`toOrd`, `nextDate`) mirrors the proleptic
Gregorian calendar used by CPython's `datetime`.
-/

namespace Pipeline

instance {ε α : Type} [DecidableEq ε] [DecidableEq α] : DecidableEq (Except ε α) :=
  fun a b =>
    match a, b with
    | .error x, .error y => decidable_of_iff (x = y) (by simp)
    | .ok x, .ok y => decidable_of_iff (x = y) (by simp)
    | .error _, .ok _ => isFalse (fun h => Except.noConfusion h)
    | .ok _, .error _ => isFalse (fun h => Except.noConfusion h)

/-! ## Calendar model (CPython `datetime.date`) -/

structure Date where
  year : Nat
  month : Nat
  day : Nat
deriving DecidableEq

def isLeap (y : Nat) : Bool :=
  (y % 4 == 0 && y % 100 != 0) || y % 400 == 0

def daysInMonth (y m : Nat) : Nat :=
  if m = 2 then (if isLeap y then 29 else 28)
  else if m = 4 ∨ m = 6 ∨ m = 9 ∨ m = 11 then 30
  else 31

/-- A valid proleptic Gregorian date as accepted by `datetime.date`
(with `MINYEAR = 1`; the model only ever uses years up to 9999). -/
def validDate (d : Date) : Bool :=
  1 ≤ d.year && 1 ≤ d.month && d.month ≤ 12 && 1 ≤ d.day && d.day ≤ daysInMonth d.year d.month

/-- Days in months `1..m-1` of year `y` (helper counting from month 1). -/
def daysBeforeMonthAux (y : Nat) : Nat → Nat
  | 0 => 0
  | k + 1 => daysBeforeMonthAux y k + daysInMonth y (k + 1)

def daysBeforeMonth (y m : Nat) : Nat := daysBeforeMonthAux y (m - 1)

def daysBeforeYear (year : Nat) : Nat :=
  365 * (year - 1) + (year - 1) / 4 + (year - 1) / 400 - (year - 1) / 100

/-- `datetime.date.toordinal`: 0001-01-01 is ordinal 1. -/
def toOrd (d : Date) : Nat :=
  daysBeforeYear d.year + daysBeforeMonth d.year d.month + d.day

/-- `d + timedelta(days=1)` on dates. -/
def nextDate (d : Date) : Date :=
  if d.day < daysInMonth d.year d.month then ⟨d.year, d.month, d.day + 1⟩
  else if d.month < 12 then ⟨d.year, d.month + 1, 1⟩
  else ⟨d.year + 1, 1, 1⟩

/-- A crude strictly monotone rank, used only as fuel / termination measure. -/
def rank (d : Date) : Nat := 403 * d.year + 31 * d.month + d.day

/-- `datetime` comparison `a <= b` (lexicographic on (year, month, day)). -/
def dateLeB (a b : Date) : Bool :=
  a.year < b.year ||
    (a.year == b.year && (a.month < b.month || (a.month == b.month && a.day ≤ b.day)))

/-- `datetime` comparison `a < b`. -/
def dateLtB (a b : Date) : Bool :=
  a.year < b.year ||
    (a.year == b.year && (a.month < b.month || (a.month == b.month && a.day < b.day)))

/-! ## Date strings: `strftime('%Y-%m-%d')` and `strptime` -/

def digitC (n : Nat) : Char := Char.ofNat (48 + n)

def isDigitC (c : Char) : Bool := 48 ≤ c.toNat && c.toNat ≤ 57

def digitsVal (l : List Char) : Nat :=
  l.foldl (fun a c => 10 * a + (c.toNat - 48)) 0

def pad2C (n : Nat) : List Char := [digitC (n / 10), digitC (n % 10)]

def pad4C (n : Nat) : List Char :=
  [digitC (n / 1000 % 10), digitC (n / 100 % 10), digitC (n / 10 % 10), digitC (n % 10)]

/-- `date.strftime('%Y-%m-%d')` (zero padded; model is for years ≤ 9999). -/
def formatDate (d : Date) : String :=
  ⟨pad4C d.year ++ '-' :: (pad2C d.month ++ '-' :: pad2C d.day)⟩

/-- Split a character list on a separator (`str.split(sep)` semantics:
`"" ↦ [""]`, separators delimit possibly empty fields). -/
def splitC (sep : Char) : List Char → List (List Char)
  | [] => [[]]
  | c :: t =>
    if c = sep then [] :: splitC sep t
    else
      match splitC sep t with
      | [] => [[c]]
      | h :: r => (c :: h) :: r

/-- `datetime.strptime(s, '%Y-%m-%d')`: exactly four year digits,
one or two month/day digits, and the resulting date must be valid. -/
def parseDateChars (l : List Char) : Option Date :=
  match splitC '-' l with
  | [ys, ms, ds] =>
    if ys.length = 4 && (ms.length = 1 || ms.length = 2) && (ds.length = 1 || ds.length = 2)
        && ys.all isDigitC && ms.all isDigitC && ds.all isDigitC then
      if validDate ⟨digitsVal ys, digitsVal ms, digitsVal ds⟩ then
        some ⟨digitsVal ys, digitsVal ms, digitsVal ds⟩
      else none
    else none
  | _ => none

def parseDate (s : String) : Option Date := parseDateChars s.data

/-- `datetime.strptime(s, '%Y%m%d')` restricted to the eight-digit table
suffixes produced by the GA4 export (`events_YYYYMMDD`). -/
def parse8Chars (l : List Char) : Option Date :=
  match l with
  | [y1, y2, y3, y4, m1, m2, d1, d2] =>
    if [y1, y2, y3, y4, m1, m2, d1, d2].all isDigitC then
      if validDate ⟨digitsVal [y1, y2, y3, y4], digitsVal [m1, m2], digitsVal [d1, d2]⟩ then
        some ⟨digitsVal [y1, y2, y3, y4], digitsVal [m1, m2], digitsVal [d1, d2]⟩
      else none
    else none
  | _ => none

def parse8 (s : String) : Option Date := parse8Chars s.data

/-! ## Python string helpers (modelled on `List Char` so that they reduce) -/

def strSplit (sep : Char) (s : String) : List String :=
  (splitC sep s.data).map String.mk

def strStarts (s pat : String) : Bool := pat.data.isPrefixOf s.data

def strDropN (n : Nat) (s : String) : String := ⟨s.data.drop n⟩

def strLen (s : String) : Nat := s.data.length

/-- `s.rstrip('/')`. -/
def rstripSlash (s : String) : String :=
  ⟨(s.data.reverse.dropWhile (· = '/')).reverse⟩

/-- `s.zfill(2)`. -/
def zfill2 (s : String) : String :=
  if s.data.length ≥ 2 then s else ⟨List.replicate (2 - s.data.length) '0' ++ s.data⟩

/-- `s.replace(pat, rep)` for a non-empty `pat`, fuelled by `s.length`
(the fuel is enough since each step consumes at least one character). -/
def replaceAllC (pat rep : List Char) : Nat → List Char → List Char
  | 0, l => l
  | _ + 1, [] => []
  | f + 1, c :: t =>
    if pat.isPrefixOf (c :: t) then rep ++ replaceAllC pat rep f ((c :: t).drop pat.length)
    else c :: replaceAllC pat rep f t

def strReplace (s pat rep : String) : String :=
  ⟨replaceAllC pat.data rep.data s.data.length s.data⟩

/-- Code-point lexicographic strict order on character lists. -/
def charsLt : List Char → List Char → Bool
  | [], [] => false
  | [], _ :: _ => true
  | _ :: _, [] => false
  | a :: as, b :: bs => a.toNat < b.toNat || (a = b && charsLt as bs)

/-- Python string `<=` (code-point lexicographic). -/
def strLeB (a b : String) : Bool := a == b || charsLt a.data b.data

/-- Insertion step of a stable descending sort. -/
def insertDesc (x : String) : List String → List String
  | [] => [x]
  | y :: t => if strLeB y x then x :: y :: t else y :: insertDesc x t

/-- `sorted(l, reverse=True)` (ordering by code points, as in Python). -/
def sortRev (l : List String) : List String := l.foldr insertDesc []

/-- Order-preserving deduplication (S3 `CommonPrefixes` are reported once). -/
def dedupKeep (seen : List String) : List String → List String
  | [] => []
  | x :: t => if x ∈ seen then dedupKeep seen t else x :: dedupKeep (x :: seen) t

/-! ## External collaborators as oracles

Every external call is logged in a trace; oracle behaviours are functions of
the call index (the trace length at the moment of the call), which captures
arbitrary single-threaded interactive behaviour of the collaborators. -/

/-- Behaviour of one `head_object` call.  `honest` answers from the actual
object-store state (present → 200, absent → `ClientError` 404, which
`check_exists` maps to `False`); the other constructors inject faults. -/
inductive HeadResp
  | honest
  | clientErr (code msg : String)
  | exn (msg : String)

/-- One external call, as recorded in the trace. -/
inductive Ev
  | headReq (key : String)
  | extractReq (date : String)
  | putDataReq (key : String)
  | putMetaReq (key : String)
  | listObjReq
  | listTablesReq
  | connBQReq
  | connS3Req
deriving DecidableEq

/-- Oracle behaviours of the BigQuery and S3 clients.  `Except.error m`
models a raised exception whose `str` is `m`. -/
structure Env where
  /-- `extractor.extract_events date`: number of rows of the returned
  DataFrame (`0` = empty), or a raised exception. -/
  extract : Nat → String → Except String Nat
  /-- `s3_client.head_object` behaviour for a key. -/
  head : Nat → String → HeadResp
  /-- `s3_client.put_object` of the data object: `some m` raises `m`. -/
  putData : Nat → String → Option String
  /-- `s3_client.put_object` of the metadata object: `some m` raises `m`. -/
  putMeta : Nat → String → Option String
  /-- `s3_client.list_objects_v2`: `some m` raises `m`, `none` answers
  honestly from the object-store state. -/
  listObjects : Nat → Option String
  /-- `bq_client.list_tables`: table ids of the dataset, or a raised
  exception. -/
  bqTables : Nat → Except String (List String)
  /-- `extractor.test_connection()` outcome. -/
  bqConn : Nat → Bool
  /-- `loader.test_connection()` outcome. -/
  s3Conn : Nat → Bool
  /-- `datetime.now().date().toordinal()` at status time. -/
  today : Nat

/-- The mutable world: S3 objects present, plus the call trace
(most recent call first). -/
structure PState where
  objects : List String
  trace : List Ev

def PState.time (st : PState) : Nat := st.trace.length

def PState.push (st : PState) (e : Ev) : PState := ⟨st.objects, e :: st.trace⟩

/-! ## S3Loader (`src/pipeline/loaders/s3_loader.py`) -/

/-- The partitioned key both `upload_events` and `check_exists` build:
`year, month, day = date.split('-')` (a `ValueError` if the split does not
yield three parts) followed by the f-string.  `pfx` is `self.prefix`,
`data_type` is always `"events"` in the pipeline. -/
def s3KeyFor (pfx date : String) : Except String String :=
  match strSplit '-' date with
  | [y, m, d] =>
    .ok (pfx ++ "/events/year=" ++ y ++ "/month=" ++ m ++ "/day=" ++ d ++ "/data.parquet")
  | _ => .error "not enough values to unpack"

/-- `S3Loader.check_exists(date)`. -/
def check_exists (env : Env) (pfx : String) (st : PState) (date : String) :
    Except String Bool × PState :=
  match s3KeyFor pfx date with
  | .error e => (.error e, st)
  | .ok key =>
    let st1 := st.push (.headReq key)
    match env.head st.time key with
    | .honest => (.ok (decide (key ∈ st.objects)), st1)
    | .clientErr code msg => if code = "404" then (.ok false, st1) else (.error msg, st1)
    | .exn msg => (.error msg, st1)

/-- `s3_key.replace('/data.parquet', '/metadata.json')`. -/
def metaKeyOf (key : String) : String :=
  strReplace key "/data.parquet" "/metadata.json"

/-- `S3Loader.upload_events(df, date)` with `len(df) = n`; returns the S3 key
(or `none` for an empty DataFrame, which returns `None` before uploading).
The metadata upload failure is swallowed (`_upload_metadata` catches). -/
def upload_events (env : Env) (pfx : String) (st : PState) (n : Nat) (date : String) :
    Except String (Option String) × PState :=
  if n = 0 then (.ok none, st)
  else
    match s3KeyFor pfx date with
    | .error e => (.error e, st)
    | .ok key =>
      let t := st.time
      let st1 := st.push (.putDataReq key)
      match env.putData t key with
      | some msg => (.error msg, st1)
      | none =>
        let st2 : PState := ⟨key :: st1.objects, st1.trace⟩
        let mkey := metaKeyOf key
        let st3 := st2.push (.putMetaReq mkey)
        match env.putMeta st2.time mkey with
        | some _ => (.ok (some key), st3)
        | none => (.ok (some key), ⟨mkey :: st3.objects, st3.trace⟩)

/-- S3 `ListObjectsV2(Prefix=pfx, Delimiter='/')` `CommonPrefixes`: keys
sharing `pfx` are grouped by the substring up to and including the first
`'/'` after the prefix; keys with no further `'/'` go to `Contents` instead. -/
def commonPrefixes (pfx : String) (objects : List String) : List String :=
  dedupKeep [] (objects.filterMap (fun k =>
    if strStarts k pfx then
      let rest := (strDropN (strLen pfx) k).data
      if rest.any (· = '/') then
        some ⟨pfx.data ++ rest.takeWhile (· ≠ '/') ++ ['/']⟩
      else none
    else none))

/-- `S3Loader.list_available_dates(data_type="events", limit)`.  Any raised
exception is caught and `[]` returned. -/
def list_available_dates (env : Env) (pfx : String) (st : PState) (limit : Nat) :
    List String × PState :=
  let listPfx := pfx ++ "/events/"
  let st1 := st.push .listObjReq
  match env.listObjects st.time with
  | some _ => ([], st1)
  | none =>
    let cps := commonPrefixes listPfx st.objects
    let dates := cps.filterMap (fun p =>
      let parts := strSplit '/' (rstripSlash p)
      match parts.filter (fun q => strStarts q "year="),
            parts.filter (fun q => strStarts q "month="),
            parts.filter (fun q => strStarts q "day=") with
      | yp :: _, mp :: _, dp :: _ =>
        match (strSplit '=' yp).get? 1, (strSplit '=' mp).get? 1, (strSplit '=' dp).get? 1 with
        | some y, some m, some d => some (y ++ "-" ++ zfill2 m ++ "-" ++ zfill2 d)
        | _, _, _ => none
      | _, _, _ => none)
    ((sortRev dates).take limit, st1)

/-! ## BigQueryExtractor (`src/pipeline/extractors/bigquery_extractor.py`) -/

/-- `BigQueryExtractor.get_available_dates(days_back)`: lists the dataset's
tables (a raised exception propagates), keeps `events_YYYYMMDD` tables inside
the lookback window, formats and sorts descending. -/
def get_available_dates (env : Env) (st : PState) (daysBack : Nat) :
    Except String (List String) × PState :=
  let st1 := st.push .listTablesReq
  match env.bqTables st.time with
  | .error e => (.error e, st1)
  | .ok tables =>
    let dates := tables.filterMap (fun tid =>
      if strStarts tid "events_" then
        match (strSplit '_' tid).get? 1 with
        | none => none
        | some dstr =>
          match parse8 dstr with
          | none => none
          | some dobj =>
            if (env.today : Int) - (toOrd dobj : Int) ≤ (daysBack : Int) then
              some (formatDate dobj)
            else none
      else none)
    (.ok (sortRev dates), st1)

/-! ## Pipeline orchestrator (`src/pipeline/pipeline.py`) -/

/-- The `result` dict of `Pipeline.run_daily`. -/
structure DailyResult where
  date : String
  success : Bool
  records_extracted : Nat
  s3_key : Option String
  error : Option String
  skipped : Bool
deriving DecidableEq

/-- `Pipeline.run_daily(date, skip_existing)` with an explicit date.  Every
statement of the Python body sits inside its `try`, so each internal raise is
converted to the `error` field and the function is total. -/
def run_daily (env : Env) (pfx : String) (st : PState) (date : String) (skipE : Bool) :
    DailyResult × PState :=
  let r0 : DailyResult := ⟨date, false, 0, none, none, false⟩
  match (if skipE then check_exists env pfx st date else (.ok false, st)) with
  | (.error e, st1) => ({ r0 with error := some e }, st1)
  | (.ok true, st1) => ({ r0 with skipped := true, success := true }, st1)
  | (.ok false, st1) =>
    let st2 := st1.push (.extractReq date)
    match env.extract st1.time date with
    | .error e => ({ r0 with error := some e }, st2)
    | .ok n =>
      if n = 0 then ({ r0 with error := some "No data found" }, st2)
      else
        match upload_events env pfx st2 n date with
        | (.error e, st3) => ({ r0 with records_extracted := n, error := some e }, st3)
        | (.ok k, st3) =>
          ({ r0 with records_extracted := n, s3_key := k, success := true }, st3)

/-- The `results` dict of `Pipeline.backfill`. -/
structure BackfillReport where
  start_date : String
  end_date : String
  total_days : Nat
  successful_days : List String
  failed_days : List (String × Option String)
  skipped_days : List String
  total_records : Nat
deriving DecidableEq

inductive BackErr
  | parseErr (arg : String)
  | invalidRange
deriving DecidableEq

/-- Accumulated day lists of a backfill (successful, skipped, failed,
total_records). -/
structure BackAcc where
  succ : List String
  skip : List String
  fail : List (String × Option String)
  records : Nat
deriving DecidableEq

/-- The `while current_date <= end` loop of `Pipeline.backfill`.  The fuel is
only a termination device: `rank e + 1 - rank d` overestimates the number of
iterations (`rank` strictly increases along valid dates), so with the fuel
used by `backfill` the guard, not the fuel, ends the loop.  The Python loop
additionally wraps the `run_daily` call in a `try` that records an escaping
exception as a failed day; since the embedded `run_daily` is total (every
raise site in its body sits inside its own `try`), that handler is
unreachable and the loop calls `run_daily` directly. -/
def backfillGo (env : Env) (pfx : String) (skipE : Bool) (e : Date) :
    Nat → Date → PState → BackAcc × PState
  | 0, _, st => (⟨[], [], [], 0⟩, st)
  | f + 1, d, st =>
    if dateLeB d e then
      let ds := formatDate d
      let (res, st1) := run_daily env pfx st ds skipE
      let (acc, st2) := backfillGo env pfx skipE e f (nextDate d) st1
      if res.success then
        if res.skipped then ({ acc with skip := ds :: acc.skip }, st2)
        else ({ acc with succ := ds :: acc.succ,
                         records := res.records_extracted + acc.records }, st2)
      else ({ acc with fail := (ds, res.error) :: acc.fail }, st2)
    else (⟨[], [], [], 0⟩, st)

/-- `Pipeline.backfill(start_date, end_date, skip_existing)`.  `strptime` of
the start is evaluated first; `start > end` (datetime comparison) raises the
`ValueError("start_date must be before end_date")` modelled as
`invalidRange`; `total_days = (end - start).days + 1` is the ordinal
difference plus one. -/
def backfill (env : Env) (pfx : String) (st : PState) (startS endS : String) (skipE : Bool) :
    Except BackErr BackfillReport × PState :=
  match parseDate startS with
  | none => (.error (.parseErr startS), st)
  | some s =>
    match parseDate endS with
    | none => (.error (.parseErr endS), st)
    | some e =>
      if dateLtB e s then (.error .invalidRange, st)
      else
        let (acc, st') := backfillGo env pfx skipE e (rank e + 1) s st
        (.ok ⟨startS, endS, toOrd e - toOrd s + 1, acc.succ, acc.fail, acc.skip, acc.records⟩, st')

/-- The chronological list of calendar days of `[d, e]`, mirroring the loop
(same guard and fuel as `backfillGo`). -/
def rangeGo (e : Date) : Nat → Date → List Date
  | 0, _ => []
  | f + 1, d => if dateLeB d e then d :: rangeGo e f (nextDate d) else []

def dateRange (s e : Date) : List Date := rangeGo e (rank e + 1) s

/-- `Pipeline.test_connections()`: both probes are total (every raise is
caught inside them or in `test_connections` itself). -/
def test_connections (env : Env) (st : PState) : (Bool × Bool) × PState :=
  let st1 := st.push .connBQReq
  let bq := env.bqConn st.time
  let st2 := st1.push .connS3Req
  let s3 := env.s3Conn st1.time
  ((bq, s3), st2)

/-- The `status` dict of `Pipeline.get_pipeline_status`. -/
structure StatusReport where
  bq_conn : Bool
  s3_conn : Bool
  bigquery_available_dates : List String
  s3_available_dates : List String
  missing_dates : List String
deriving DecidableEq

/-- `Pipeline.get_pipeline_status()`.  A single `try` wraps both listings and
the difference; only `get_available_dates` can raise (`list_available_dates`
catches internally), in which case all three date lists keep their initial
empty value. -/
def get_pipeline_status (env : Env) (pfx : String) (st : PState) :
    StatusReport × PState :=
  let ((bq, s3), st1) := test_connections env st
  match get_available_dates env st1 30 with
  | (.error _, st2) => (⟨bq, s3, [], [], []⟩, st2)
  | (.ok bqDates, st2) =>
    let (s3Dates, st3) := list_available_dates env pfx st2 30
    (⟨bq, s3, bqDates, s3Dates, bqDates.filter (fun d => decide (d ∉ s3Dates))⟩, st3)

/-! ## Calendar lemmas -/

theorem isLeap_iff (y : Nat) :
    isLeap y = true ↔ ((y % 4 = 0 ∧ y % 100 ≠ 0) ∨ y % 400 = 0) := by
  simp [isLeap]

theorem daysInMonth_pos (y m : Nat) : 1 ≤ daysInMonth y m := by
  unfold daysInMonth; split_ifs <;> norm_num

theorem daysInMonth_le (y m : Nat) : daysInMonth y m ≤ 31 := by
  unfold daysInMonth; split_ifs <;> norm_num

theorem validDate_iff (d : Date) :
    validDate d = true ↔
      1 ≤ d.year ∧ 1 ≤ d.month ∧ d.month ≤ 12 ∧ 1 ≤ d.day ∧
        d.day ≤ daysInMonth d.year d.month := by
  simp [validDate, and_assoc]

theorem dateLeB_iff (a b : Date) :
    dateLeB a b = true ↔
      (a.year < b.year ∨ (a.year = b.year ∧
        (a.month < b.month ∨ (a.month = b.month ∧ a.day ≤ b.day)))) := by
  simp [dateLeB]

theorem dateLtB_iff (a b : Date) :
    dateLtB a b = true ↔
      (a.year < b.year ∨ (a.year = b.year ∧
        (a.month < b.month ∨ (a.month = b.month ∧ a.day < b.day)))) := by
  simp [dateLtB]

theorem daysBeforeYear_succ (y : Nat) (hy : 1 ≤ y) :
    daysBeforeYear (y + 1) = daysBeforeYear y + (if isLeap y then 366 else 365) := by
  obtain ⟨z, rfl⟩ : ∃ z, y = z + 1 := ⟨y - 1, by omega⟩
  unfold daysBeforeYear
  simp only [Nat.add_sub_cancel]
  split
  case isTrue h =>
    rw [isLeap_iff] at h
    omega
  case isFalse h =>
    rw [isLeap_iff] at h
    push_neg at h
    by_cases h4 : (z + 1) % 4 = 0
    · have h100 := h.1 h4
      have h400 := h.2
      omega
    · have h400 := h.2
      have h100 : (z + 1) % 100 ≠ 0 := by
        intro hc
        exact h4 (Nat.mod_eq_zero_of_dvd
          (dvd_trans (by norm_num : (4 : Nat) ∣ 100) (Nat.dvd_of_mod_eq_zero hc)))
      have e4 : (z + 1) / 4 = z / 4 := by omega
      have e100 : (z + 1) / 100 = z / 100 := by omega
      have e400 : (z + 1) / 400 = z / 400 := by omega
      rw [e4, e100, e400]
      have hdle : z / 100 ≤ 365 * z + z / 4 + z / 400 := by omega
      have hX : 365 * (z + 1) + z / 4 + z / 400 = 365 * z + z / 4 + z / 400 + 365 := by
        ring
      rw [hX, Nat.sub_add_comm hdle]

theorem daysBeforeYear_le_succ (y : Nat) : daysBeforeYear y ≤ daysBeforeYear (y + 1) := by
  unfold daysBeforeYear
  omega

theorem daysBeforeYear_mono {y1 y2 : Nat} (h : y1 ≤ y2) :
    daysBeforeYear y1 ≤ daysBeforeYear y2 := by
  induction h with
  | refl => exact le_rfl
  | step _ ih => exact ih.trans (daysBeforeYear_le_succ _)

theorem daysBeforeMonth_succ (y m : Nat) (hm : 1 ≤ m) :
    daysBeforeMonth y (m + 1) = daysBeforeMonth y m + daysInMonth y m := by
  match m, hm with
  | k + 1, _ => simp [daysBeforeMonth, daysBeforeMonthAux]

theorem daysBeforeMonth_le_succ (y m : Nat) :
    daysBeforeMonth y m ≤ daysBeforeMonth y (m + 1) := by
  match m with
  | 0 => simp [daysBeforeMonth, daysBeforeMonthAux]
  | k + 1 => simp [daysBeforeMonth, daysBeforeMonthAux]

theorem daysBeforeMonth_mono (y : Nat) {m1 m2 : Nat} (h : m1 ≤ m2) :
    daysBeforeMonth y m1 ≤ daysBeforeMonth y m2 := by
  induction h with
  | refl => exact le_rfl
  | step _ ih => exact ih.trans (daysBeforeMonth_le_succ _ _)

theorem daysBeforeMonth_13 (y : Nat) :
    daysBeforeMonth y 13 = if isLeap y then 366 else 365 := by
  by_cases h : isLeap y <;>
    simp [daysBeforeMonth, daysBeforeMonthAux, daysInMonth, h]

theorem daysInMonth_12 (y : Nat) : daysInMonth y 12 = 31 := by
  simp [daysInMonth]

/-- Day-of-year upper bound for a valid date. -/
theorem dayOfYear_le (d : Date) (h : validDate d = true) :
    daysBeforeMonth d.year d.month + d.day ≤ if isLeap d.year then 366 else 365 := by
  rw [validDate_iff] at h
  obtain ⟨_, hm1, hm2, _, hd2⟩ := h
  have h1 : daysBeforeMonth d.year d.month + d.day ≤ daysBeforeMonth d.year (d.month + 1) := by
    rw [daysBeforeMonth_succ _ _ hm1]; omega
  have h2 : daysBeforeMonth d.year (d.month + 1) ≤ daysBeforeMonth d.year 13 :=
    daysBeforeMonth_mono _ (by omega)
  rw [daysBeforeMonth_13] at h2
  omega

/-- CPython ordinal arithmetic: adding one day adds one to the ordinal. -/
theorem toOrd_nextDate (d : Date) (h : validDate d = true) :
    toOrd (nextDate d) = toOrd d + 1 := by
  have hv := (validDate_iff d).mp h
  obtain ⟨hy, hm1, hm2, hd1, hd2⟩ := hv
  unfold nextDate
  split
  case isTrue h1 =>
    simp only [toOrd]
    omega
  case isFalse h1 =>
    split
    case isTrue h2 =>
      simp only [toOrd]
      rw [daysBeforeMonth_succ _ _ hm1]
      omega
    case isFalse h2 =>
      have hm12 : d.month = 12 := by omega
      have hday : d.day = 31 := by rw [hm12, daysInMonth_12] at hd2 h1; omega
      simp only [toOrd]
      rw [daysBeforeYear_succ _ hy]
      have h13 := daysBeforeMonth_13 d.year
      have h12 : daysBeforeMonth d.year 13 =
          daysBeforeMonth d.year 12 + daysInMonth d.year 12 :=
        daysBeforeMonth_succ _ _ (by omega)
      rw [daysInMonth_12] at h12
      have h0 : daysBeforeMonth (d.year + 1) 1 = 0 := by
        simp [daysBeforeMonth, daysBeforeMonthAux]
      rw [hm12]
      split_ifs at h13 ⊢ <;> omega

theorem validDate_nextDate (d : Date) (h : validDate d = true) :
    validDate (nextDate d) = true := by
  have hv := (validDate_iff d).mp h
  obtain ⟨hy, hm1, hm2, hd1, hd2⟩ := hv
  unfold nextDate
  split
  case isTrue h1 =>
    simp only [validDate_iff]
    exact ⟨hy, hm1, hm2, by omega, by omega⟩
  case isFalse h1 =>
    split
    case isTrue h2 =>
      simp only [validDate_iff]
      exact ⟨hy, by omega, by omega, le_rfl, daysInMonth_pos _ _⟩
    case isFalse h2 =>
      simp only [validDate_iff]
      exact ⟨by omega, le_rfl, by omega, le_rfl, daysInMonth_pos _ _⟩

theorem rank_lt_rank_nextDate (d : Date) (h : validDate d = true) :
    rank d < rank (nextDate d) := by
  have hv := (validDate_iff d).mp h
  obtain ⟨hy, hm1, hm2, hd1, hd2⟩ := hv
  have hle := daysInMonth_le d.year d.month
  unfold nextDate
  split
  case isTrue h1 => simp only [rank]; omega
  case isFalse h1 =>
    split
    case isTrue h2 => simp only [rank]; omega
    case isFalse h2 => simp only [rank]; omega

theorem dateLeB_rank {a b : Date} (ha : validDate a = true) (hb : validDate b = true)
    (h : dateLeB a b = true) : rank a ≤ rank b := by
  rw [dateLeB_iff] at h
  rw [validDate_iff] at ha hb
  have h1 := daysInMonth_le a.year a.month
  have h2 := daysInMonth_le b.year b.month
  unfold rank
  omega

/-- Strict monotonicity of the ordinal with respect to `datetime` order. -/
theorem toOrd_lt_of_dateLtB {a b : Date} (ha : validDate a = true) (hb : validDate b = true)
    (h : dateLtB a b = true) : toOrd a < toOrd b := by
  have hva := (validDate_iff a).mp ha
  have hvb := (validDate_iff b).mp hb
  rw [dateLtB_iff] at h
  rcases h with hy | ⟨hy, h⟩
  · -- strictly earlier year
    have hdoya := dayOfYear_le a ha
    have h1 : daysBeforeYear (a.year + 1) ≤ daysBeforeYear b.year :=
      daysBeforeYear_mono (by omega)
    have h2 := daysBeforeYear_succ a.year hva.1
    unfold toOrd
    split_ifs at hdoya h2 <;> omega
  · rcases h with hm | ⟨hm, hd⟩
    · -- same year, strictly earlier month
      have h1 : daysBeforeMonth a.year a.month + a.day ≤
          daysBeforeMonth a.year (a.month + 1) := by
        rw [daysBeforeMonth_succ _ _ hva.2.1]
        omega
      have h2 : daysBeforeMonth a.year (a.month + 1) ≤ daysBeforeMonth a.year b.month :=
        daysBeforeMonth_mono _ (by omega)
      unfold toOrd
      rw [hy] at h1 h2 ⊢
      omega
    · unfold toOrd
      rw [hy, hm]
      omega

/-- Outcome bucket of one backfill day (successful / skipped / failed). -/
inductive DayTag
  | ds
  | dk
  | df
deriving DecidableEq

/-- Project the days carrying a given tag, in order. -/
def pickTag (t0 : DayTag) (l : List (String × DayTag)) : List String :=
  l.filterMap (fun p => if p.2 = t0 then some p.1 else none)

/-! ## Parser / formatter facts -/

theorem digitC_toNat : ∀ k, k ≤ 9 → (digitC k).toNat = 48 + k := by decide

theorem digitC_ne_dash : ∀ k, k ≤ 9 → digitC k ≠ '-' := by decide

theorem isDigitC_digitC : ∀ k, k ≤ 9 → isDigitC (digitC k) = true := by decide

theorem splitC_ne_nil (sep : Char) (l : List Char) : splitC sep l ≠ [] := by
  induction l with
  | nil => simp [splitC]
  | cons c t ih =>
    by_cases h : c = sep
    · simp [splitC, h]
    · simp only [splitC, if_neg h]
      obtain ⟨x, r, hx⟩ := List.exists_cons_of_ne_nil ih
      rw [hx]
      simp

theorem splitC_cons_ne (sep c : Char) (t : List Char) (h : c ≠ sep) :
    ∃ x r, splitC sep t = x :: r ∧ splitC sep (c :: t) = (c :: x) :: r := by
  obtain ⟨x, r, hx⟩ := List.exists_cons_of_ne_nil (splitC_ne_nil sep t)
  exact ⟨x, r, hx, by simp only [splitC, if_neg h]; rw [hx]⟩

theorem splitC_no_sep (sep : Char) (l : List Char) (h : ∀ c ∈ l, c ≠ sep) :
    splitC sep l = [l] := by
  induction l with
  | nil => rfl
  | cons c t ih =>
    obtain ⟨x, r, hx, hc⟩ := splitC_cons_ne sep c t (h c (by simp))
    rw [hc]
    have ht := ih (fun d hd => h d (by simp [hd]))
    rw [ht] at hx
    cases hx
    rfl

theorem splitC_append (sep : Char) (a r : List Char) (h : ∀ c ∈ a, c ≠ sep) :
    splitC sep (a ++ sep :: r) = a :: splitC sep r := by
  induction a with
  | nil => simp [splitC]
  | cons c t ih =>
    have ht := ih (fun d hd => h d (by simp [hd]))
    obtain ⟨x, q, hx, hc⟩ := splitC_cons_ne sep c (t ++ sep :: r) (h c (by simp))
    rw [List.cons_append, hc]
    rw [ht] at hx
    cases hx
    rfl

theorem digitsVal_aux_lt (l : List Char) (a : Nat) (h : l.all isDigitC = true) :
    l.foldl (fun a c => 10 * a + (c.toNat - 48)) a < (a + 1) * 10 ^ l.length := by
  induction l generalizing a with
  | nil => simp
  | cons c t ih =>
    simp only [List.all_cons, Bool.and_eq_true] at h
    have hc : c.toNat - 48 ≤ 9 := by
      have := h.1
      simp only [isDigitC, Bool.and_eq_true, decide_eq_true_eq] at this
      omega
    have := ih (10 * a + (c.toNat - 48)) h.2
    have hmono : (10 * a + (c.toNat - 48) + 1) * 10 ^ t.length ≤
        ((a + 1) * 10) * 10 ^ t.length :=
      Nat.mul_le_mul_right _ (by omega)
    calc List.foldl (fun a c => 10 * a + (c.toNat - 48)) a (c :: t)
        = List.foldl (fun a c => 10 * a + (c.toNat - 48)) (10 * a + (c.toNat - 48)) t := rfl
      _ < (10 * a + (c.toNat - 48) + 1) * 10 ^ t.length := this
      _ ≤ ((a + 1) * 10) * 10 ^ t.length := hmono
      _ = (a + 1) * 10 ^ (t.length + 1) := by ring
      _ = (a + 1) * 10 ^ (c :: t).length := by simp

theorem digitsVal_lt (l : List Char) (h : l.all isDigitC = true) :
    digitsVal l < 10 ^ l.length := by
  have := digitsVal_aux_lt l 0 h
  simpa [digitsVal] using this

theorem digitsVal_pad4C (y : Nat) (hy : y ≤ 9999) : digitsVal (pad4C y) = y := by
  have h1 : (digitC (y / 1000 % 10)).toNat = 48 + y / 1000 % 10 :=
    digitC_toNat _ (by omega)
  have h2 : (digitC (y / 100 % 10)).toNat = 48 + y / 100 % 10 :=
    digitC_toNat _ (by omega)
  have h3 : (digitC (y / 10 % 10)).toNat = 48 + y / 10 % 10 :=
    digitC_toNat _ (by omega)
  have h4 : (digitC (y % 10)).toNat = 48 + y % 10 :=
    digitC_toNat _ (by omega)
  simp only [digitsVal, pad4C, List.foldl, h1, h2, h3, h4]
  omega

theorem digitsVal_pad2C (n : Nat) (hn : n ≤ 99) : digitsVal (pad2C n) = n := by
  have h1 : (digitC (n / 10)).toNat = 48 + n / 10 := digitC_toNat _ (by omega)
  have h2 : (digitC (n % 10)).toNat = 48 + n % 10 := digitC_toNat _ (by omega)
  simp only [digitsVal, pad2C, List.foldl, h1, h2]
  omega

theorem pad4C_no_dash (y : Nat) : ∀ c ∈ pad4C y, c ≠ '-' := by
  intro c hc
  simp only [pad4C, List.mem_cons, List.not_mem_nil, or_false] at hc
  rcases hc with h | h | h | h <;> (subst h; exact digitC_ne_dash _ (by omega))

theorem pad2C_no_dash (n : Nat) (hn : n ≤ 99) : ∀ c ∈ pad2C n, c ≠ '-' := by
  intro c hc
  simp only [pad2C, List.mem_cons, List.not_mem_nil, or_false] at hc
  rcases hc with h | h <;> (subst h; exact digitC_ne_dash _ (by omega))

theorem pad4C_all_digits (y : Nat) : (pad4C y).all isDigitC = true := by
  simp only [pad4C, List.all_cons, List.all_nil, Bool.and_eq_true, and_true]
  exact ⟨isDigitC_digitC _ (by omega), isDigitC_digitC _ (by omega),
    isDigitC_digitC _ (by omega), isDigitC_digitC _ (by omega)⟩

theorem pad2C_all_digits (n : Nat) (hn : n ≤ 99) : (pad2C n).all isDigitC = true := by
  simp only [pad2C, List.all_cons, List.all_nil, Bool.and_eq_true, and_true]
  exact ⟨isDigitC_digitC _ (by omega), isDigitC_digitC _ (by omega)⟩

/-- `strptime` inverts `strftime` on valid dates with four-digit years. -/
theorem parseDate_formatDate (d : Date) (h : validDate d = true) (hy : d.year ≤ 9999) :
    parseDate (formatDate d) = some d := by
  have hv := (validDate_iff d).mp h
  have hm99 : d.month ≤ 99 := by omega
  have hd99 : d.day ≤ 99 := by
    have := daysInMonth_le d.year d.month
    omega
  unfold parseDate formatDate
  show parseDateChars (pad4C d.year ++ '-' :: (pad2C d.month ++ '-' :: pad2C d.day)) = _
  unfold parseDateChars
  rw [splitC_append '-' _ _ (pad4C_no_dash d.year),
      splitC_append '-' _ _ (pad2C_no_dash d.month hm99),
      splitC_no_sep '-' _ (pad2C_no_dash d.day hd99)]
  have hlen4 : (pad4C d.year).length = 4 := rfl
  have hlen2m : (pad2C d.month).length = 2 := rfl
  have hlen2d : (pad2C d.day).length = 2 := rfl
  simp only [hlen4, hlen2m, hlen2d, pad4C_all_digits,
    pad2C_all_digits _ hm99, pad2C_all_digits _ hd99,
    digitsVal_pad4C _ hy, digitsVal_pad2C _ hm99, digitsVal_pad2C _ hd99]
  simp [h]

/-- Whatever `strptime` accepts is a valid date with a four-digit year. -/
theorem parseDate_valid {s : String} {d : Date} (h : parseDate s = some d) :
    validDate d = true ∧ d.year ≤ 9999 := by
  unfold parseDate parseDateChars at h
  split at h
  case h_1 ys ms ds heq =>
    split at h
    case isTrue hcond =>
      split at h
      case isTrue hval =>
        cases h
        simp only [Bool.and_eq_true, decide_eq_true_eq] at hcond
        obtain ⟨⟨⟨⟨⟨hy4, _⟩, _⟩, hysd⟩, _⟩, _⟩ := hcond
        refine ⟨hval, ?_⟩
        have hlt := digitsVal_lt ys hysd
        rw [hy4] at hlt
        have h10 : (10 : Nat) ^ 4 = 10000 := by norm_num
        rw [h10] at hlt
        simpa using Nat.lt_succ_iff.mp (by omega)
      case isFalse => exact absurd h (by simp)
    case isFalse => exact absurd h (by simp)
  case h_2 => exact absurd h (by simp)

theorem formatDate_inj {a b : Date} (ha : validDate a = true) (hya : a.year ≤ 9999)
    (hb : validDate b = true) (hyb : b.year ≤ 9999)
    (h : formatDate a = formatDate b) : a = b := by
  have h1 := parseDate_formatDate a ha hya
  have h2 := parseDate_formatDate b hb hyb
  rw [h, h2] at h1
  exact (Option.some.inj h1).symm

theorem date_ext_iff (a b : Date) :
    a = b ↔ a.year = b.year ∧ a.month = b.month ∧ a.day = b.day := by
  cases a; cases b; simp

/-- `datetime` order agrees with ordinal order on valid dates. -/
theorem dateLeB_iff_toOrd {a b : Date} (ha : validDate a = true) (hb : validDate b = true) :
    dateLeB a b = true ↔ toOrd a ≤ toOrd b := by
  constructor
  · intro h
    rcases (dateLeB_iff a b).mp h with hy | ⟨hy, h'⟩
    · exact le_of_lt (toOrd_lt_of_dateLtB ha hb ((dateLtB_iff a b).mpr (Or.inl hy)))
    · rcases h' with hm | ⟨hm, hd⟩
      · exact le_of_lt (toOrd_lt_of_dateLtB ha hb
          ((dateLtB_iff a b).mpr (Or.inr ⟨hy, Or.inl hm⟩)))
      · rcases Nat.lt_or_ge a.day b.day with hlt | hge
        · exact le_of_lt (toOrd_lt_of_dateLtB ha hb
            ((dateLtB_iff a b).mpr (Or.inr ⟨hy, Or.inr ⟨hm, hlt⟩⟩)))
        · have : a = b := (date_ext_iff a b).mpr ⟨hy, hm, by omega⟩
          rw [this]
  · intro h
    by_contra hc
    have hlt : dateLtB b a = true := by
      rw [dateLtB_iff]
      rw [dateLeB_iff] at hc
      push_neg at hc
      omega
    have := toOrd_lt_of_dateLtB hb ha hlt
    omega

/-! ## Day-range lemmas -/

theorem rangeGo_length (e : Date) (he : validDate e = true) :
    ∀ f d, validDate d = true → rank e < f + rank d →
      (rangeGo e f d).length = if dateLeB d e then toOrd e - toOrd d + 1 else 0 := by
  intro f
  induction f with
  | zero =>
    intro d hd hf
    cases hle : dateLeB d e
    · simp [rangeGo]
    · have := dateLeB_rank hd he hle
      omega
  | succ f ih =>
    intro d hd hf
    cases hle : dateLeB d e
    · simp [rangeGo, hle]
    · have hnd := validDate_nextDate d hd
      have hrk := rank_lt_rank_nextDate d hd
      have hrec := ih (nextDate d) hnd (by omega)
      have hord := toOrd_nextDate d hd
      have hde : toOrd d ≤ toOrd e := (dateLeB_iff_toOrd hd he).mp hle
      have hlen : (rangeGo e (f + 1) d).length = (rangeGo e f (nextDate d)).length + 1 := by
        simp [rangeGo, hle]
      cases hnde : dateLeB (nextDate d) e
      · have hgt : ¬ toOrd (nextDate d) ≤ toOrd e := by
          intro hc
          rw [(dateLeB_iff_toOrd hnd he).mpr hc] at hnde
          exact Bool.noConfusion hnde
        rw [hnde] at hrec
        simp only [Bool.false_eq_true, if_false] at hrec
        rw [hlen, hrec]
        simp only [eq_self_iff_true, if_true]
        omega
      · have hcc : toOrd (nextDate d) ≤ toOrd e := (dateLeB_iff_toOrd hnd he).mp hnde
        rw [hnde] at hrec
        simp only [eq_self_iff_true, if_true] at hrec
        rw [hlen, hrec]
        simp only [eq_self_iff_true, if_true]
        omega

theorem rangeGo_mem (e : Date) :
    ∀ f d x, validDate d = true → x ∈ rangeGo e f d →
      validDate x = true ∧ dateLeB x e = true ∧ rank d ≤ rank x := by
  intro f
  induction f with
  | zero => intro d x _ hx; simp [rangeGo] at hx
  | succ f ih =>
    intro d x hd hx
    cases hle : dateLeB d e
    · rw [rangeGo, hle] at hx; simp at hx
    · rw [rangeGo, hle] at hx
      simp only [if_true, List.mem_cons] at hx
      rcases hx with rfl | hx
      · exact ⟨hd, hle, le_rfl⟩
      · have hnd := validDate_nextDate d hd
        have hrk := rank_lt_rank_nextDate d hd
        obtain ⟨h1, h2, h3⟩ := ih (nextDate d) x hnd hx
        exact ⟨h1, h2, by omega⟩

theorem rangeGo_pairwise (e : Date) :
    ∀ f d, validDate d = true →
      (rangeGo e f d).Pairwise (fun a b => rank a < rank b) := by
  intro f
  induction f with
  | zero => intro d _; simp [rangeGo]
  | succ f ih =>
    intro d hd
    cases hle : dateLeB d e
    · simp [rangeGo, hle]
    · rw [rangeGo, hle]
      simp only [if_true]
      have hnd := validDate_nextDate d hd
      have hrk := rank_lt_rank_nextDate d hd
      refine List.Pairwise.cons ?_ (ih (nextDate d) hnd)
      intro x hx
      have := (rangeGo_mem e f (nextDate d) x hnd hx).2.2
      omega

/-- The formatted day strings of a range are pairwise distinct. -/
theorem dateRange_map_nodup (s e : Date) (hs : validDate s = true)
    (_he : validDate e = true) (hy : e.year ≤ 9999) :
    ((dateRange s e).map formatDate).Nodup := by
  have hpw := rangeGo_pairwise e (rank e + 1) s hs
  rw [List.Nodup, List.pairwise_map]
  refine hpw.imp_of_mem ?_
  intro a b ha hb hr
  obtain ⟨hva, hla, _⟩ := rangeGo_mem e _ s a hs ha
  obtain ⟨hvb, hlb, _⟩ := rangeGo_mem e _ s b hs hb
  have hya : a.year ≤ 9999 := by
    rcases (dateLeB_iff a e).mp hla with h | ⟨h, _⟩ <;> omega
  have hyb : b.year ≤ 9999 := by
    rcases (dateLeB_iff b e).mp hlb with h | ⟨h, _⟩ <;> omega
  intro hfmt
  have := formatDate_inj hva hya hvb hyb hfmt
  subst this
  omega

theorem pickTag_length_sum (l : List (String × DayTag)) :
    (pickTag .ds l).length + (pickTag .dk l).length + (pickTag .df l).length
      = l.length := by
  induction l with
  | nil => rfl
  | cons p t ih =>
    rcases p with ⟨x, tag⟩
    cases tag <;> simp [pickTag, List.filterMap_cons] at ih ⊢ <;> omega

/-- The backfill loop distributes the (chronological) range days over the
three report lists: there is a per-day tag assignment under which each list
is the in-order selection of its tag. -/
theorem backfillGo_partition (env : Env) (pfx : String) (skipE : Bool) (e : Date) :
    ∀ f d st,
      ∃ tags : List DayTag,
        tags.length = (rangeGo e f d).length ∧
        (backfillGo env pfx skipE e f d st).1.succ
          = pickTag .ds (((rangeGo e f d).map formatDate).zip tags) ∧
        (backfillGo env pfx skipE e f d st).1.skip
          = pickTag .dk (((rangeGo e f d).map formatDate).zip tags) ∧
        (backfillGo env pfx skipE e f d st).1.fail.map Prod.fst
          = pickTag .df (((rangeGo e f d).map formatDate).zip tags) := by
  intro f
  induction f with
  | zero => intro d st; exact ⟨[], by simp [rangeGo, backfillGo, pickTag]⟩
  | succ f ih =>
    intro d st
    cases hle : dateLeB d e
    · refine ⟨[], ?_⟩
      simp [rangeGo, backfillGo, hle, pickTag]
    · rcases hrd : run_daily env pfx st (formatDate d) skipE with ⟨res, st1⟩
      rcases hbg : backfillGo env pfx skipE e f (nextDate d) st1 with ⟨acc, st2⟩
      obtain ⟨tags, hlen, hsu, hsk, hfl⟩ := ih (nextDate d) st1
      rw [hbg] at hsu hsk hfl
      dsimp only at hsu hsk hfl
      have hrange : rangeGo e (f + 1) d = d :: rangeGo e f (nextDate d) := by
        simp [rangeGo, hle]
      cases hsucc : res.success
      · refine ⟨.df :: tags, ?_, ?_, ?_, ?_⟩ <;>
          simp [backfillGo, hle, hrd, hbg, hsucc, hrange, pickTag,
            List.filterMap_cons, hsu, hsk, hfl, hlen]
      · cases hskip : res.skipped
        · refine ⟨.ds :: tags, ?_, ?_, ?_, ?_⟩ <;>
            simp [backfillGo, hle, hrd, hbg, hsucc, hskip, hrange, pickTag,
              List.filterMap_cons, hsu, hsk, hfl, hlen]
        · refine ⟨.dk :: tags, ?_, ?_, ?_, ?_⟩ <;>
            simp [backfillGo, hle, hrd, hbg, hsucc, hskip, hrange, pickTag,
              List.filterMap_cons, hsu, hsk, hfl, hlen]

/-! ## Auxiliary facts about the pipeline functions -/

theorem dateLtB_false_of_dateLeB {s e : Date} (h : dateLeB s e = true) :
    dateLtB e s = false := by
  rw [dateLeB_iff] at h
  cases hlt : dateLtB e s
  · rfl
  · rw [dateLtB_iff] at hlt
    omega

/-- A successful upload returns `some key` (the DataFrame is non-empty) and
leaves the key among the stored objects. -/
theorem upload_events_ok {env : Env} {pfx : String} {st : PState} {n : Nat}
    {date : String} {k : Option String} {st' : PState} (hn : n ≠ 0)
    (h : upload_events env pfx st n date = (.ok k, st')) :
    ∃ key, s3KeyFor pfx date = .ok key ∧ k = some key ∧ key ∈ st'.objects := by
  unfold upload_events at h
  rw [if_neg hn] at h
  split at h
  case h_1 => simp at h
  case h_2 key hkey =>
    dsimp only at h
    split at h
    case h_1 => simp at h
    case h_2 =>
      split at h <;>
        (cases h; exact ⟨key, hkey, rfl, by simp [PState.push]⟩)

/-- `check_exists` never touches the stored objects and adds at most the
`head_object` call to the trace. -/
theorem check_exists_state {env : Env} {pfx : String} {st : PState} {date : String}
    {r : Except String Bool} {st' : PState}
    (h : check_exists env pfx st date = (r, st')) :
    st'.objects = st.objects ∧
      (st'.trace = st.trace ∨ ∃ key, st'.trace = Ev.headReq key :: st.trace) := by
  unfold check_exists at h
  split at h
  case h_1 => cases h; exact ⟨rfl, Or.inl rfl⟩
  case h_2 key hkey =>
    split at h
    · cases h; exact ⟨rfl, Or.inr ⟨key, rfl⟩⟩
    · split at h <;> (cases h; exact ⟨rfl, Or.inr ⟨key, rfl⟩⟩)
    · cases h; exact ⟨rfl, Or.inr ⟨key, rfl⟩⟩

/-- `check_exists` under an honest sink answers from the object store. -/
theorem check_exists_honest {env : Env} {pfx : String} {st : PState} {date key : String}
    (hh : ∀ t k, env.head t k = .honest) (hkey : s3KeyFor pfx date = .ok key) :
    check_exists env pfx st date =
      (.ok (decide (key ∈ st.objects)), st.push (.headReq key)) := by
  unfold check_exists
  rw [hkey]
  simp [hh]

/-! ## Witness fixtures (concrete environments and states) -/

/-- An entirely coöperative environment: five rows extracted per day, an
honest sink, no faults. -/
def envW : Env :=
  { extract := fun _ _ => .ok 5
    head := fun _ _ => .honest
    putData := fun _ _ => none
    putMeta := fun _ _ => none
    listObjects := fun _ => none
    bqTables := fun _ => .ok []
    bqConn := fun _ => true
    s3Conn := fun _ => true
    today := 738900 }

/-- A source that always answers with an empty DataFrame. -/
def envEmptySrc : Env :=
  { envW with extract := fun _ _ => .ok 0 }

/-- A source whose table listing raises. -/
def envBqListFail : Env :=
  { envW with bqTables := fun _ => .error "list_tables failed" }

/-- A source whose extraction raises. -/
def envExtractFail : Env :=
  { envW with extract := fun _ _ => .error "transport error" }

/-- A sink whose metadata upload always raises. -/
def envMetaFail : Env :=
  { envW with putMeta := fun _ _ => some "metadata write failed" }

/-- A sink whose data upload always raises. -/
def envPutFail : Env :=
  { envW with putData := fun _ _ => some "upload failed" }

def stEmpty : PState := ⟨[], []⟩

/-- A bucket holding exactly one day partition of events data. -/
def stOneDay : PState :=
  ⟨["bronze/ga4/events/year=2024/month=01/day=15/data.parquet"], []⟩

/-! ## Claims -/

/-- **C2.** For well-formed dates, `backfill` raises `InvalidRange` exactly
when start > end (datetime comparison), in which case it returns before any
source or sink call (the state, objects and trace included, is untouched and
no report is produced); otherwise it returns a report with
`total_days = (end - start).days + 1`. -/
theorem c2_backfill_range_check (env : Env) (pfx : String) (st : PState)
    (startS endS : String) (skipE : Bool) (s e : Date)
    (hs : parseDate startS = some s) (he : parseDate endS = some e) :
    ((backfill env pfx st startS endS skipE).1 = .error .invalidRange
        ↔ dateLtB e s = true) ∧
    (dateLtB e s = true →
      backfill env pfx st startS endS skipE = (.error .invalidRange, st)) ∧
    (dateLtB e s = false → ∃ rep st',
      backfill env pfx st startS endS skipE = (.ok rep, st') ∧
      rep.total_days = toOrd e - toOrd s + 1) := by
  unfold backfill
  rw [hs, he]
  cases hcmp : dateLtB e s
  · rcases hbg : backfillGo env pfx skipE e (rank e + 1) s st with ⟨acc, st'⟩
    simp only [hcmp, Bool.false_eq_true, if_false, hbg]
    refine ⟨by simp, by simp, fun _ => ⟨_, st', rfl, rfl⟩⟩
  · simp [hcmp]

/-- **C2 witness.** Concrete runs of both sides of the range check. -/
theorem c2_backfill_range_check_witness :
    parseDate "2024-01-10" = some ⟨2024, 1, 10⟩ ∧
    parseDate "2024-01-05" = some ⟨2024, 1, 5⟩ ∧
    (((backfill envW "bronze/ga4" stEmpty "2024-01-10" "2024-01-05" true).1
        = .error .invalidRange ↔ dateLtB ⟨2024, 1, 5⟩ ⟨2024, 1, 10⟩ = true) ∧
     (dateLtB ⟨2024, 1, 5⟩ ⟨2024, 1, 10⟩ = true →
       backfill envW "bronze/ga4" stEmpty "2024-01-10" "2024-01-05" true
         = (.error .invalidRange, stEmpty)) ∧
     (dateLtB ⟨2024, 1, 5⟩ ⟨2024, 1, 10⟩ = false → ∃ rep st',
       backfill envW "bronze/ga4" stEmpty "2024-01-10" "2024-01-05" true
         = (.ok rep, st') ∧
       rep.total_days = toOrd ⟨2024, 1, 5⟩ - toOrd ⟨2024, 1, 10⟩ + 1)) :=
  ⟨by decide, by decide,
    c2_backfill_range_check envW "bronze/ga4" stEmpty "2024-01-10" "2024-01-05" true
      ⟨2024, 1, 10⟩ ⟨2024, 1, 5⟩ (by decide) (by decide)⟩

/-- **C10.** If either bound fails to parse as `YYYY-MM-DD`, `backfill`
returns the `strptime` error before the range check (the error is a parse
error, not `InvalidRange`) and before any per-day processing: the state —
objects and call trace — is returned untouched and no report exists. -/
theorem c10_backfill_parse_error (env : Env) (pfx : String) (st : PState)
    (startS endS : String) (skipE : Bool)
    (h : parseDate startS = none ∨ parseDate endS = none) :
    ∃ a, backfill env pfx st startS endS skipE = (.error (.parseErr a), st) := by
  unfold backfill
  cases hs : parseDate startS
  · exact ⟨startS, rfl⟩
  · rcases h with h | h
    · rw [hs] at h; exact absurd h (by simp)
    · rw [h]; exact ⟨endS, rfl⟩

/-- **C10 witness.** A malformed start date aborts a backfill untouched. -/
theorem c10_backfill_parse_error_witness :
    (parseDate "2024-13-40" = none ∨ parseDate "2024-01-05" = none) ∧
    ∃ a, backfill envW "bronze/ga4" stEmpty "2024-13-40" "2024-01-05" true
      = (.error (.parseErr a), stEmpty) :=
  ⟨Or.inl (by decide),
    c10_backfill_parse_error envW "bronze/ga4" stEmpty "2024-13-40" "2024-01-05" true
      (Or.inl (by decide))⟩

/-- **C8.** In every report of `get_pipeline_status`, membership in
`missing_dates` is exactly membership in the BigQuery date list minus the S3
date list (set difference on the two reported date sets). -/
theorem c8_missing_is_set_difference (env : Env) (pfx : String) (st : PState)
    (x : String) :
    x ∈ (get_pipeline_status env pfx st).1.missing_dates ↔
      (x ∈ (get_pipeline_status env pfx st).1.bigquery_available_dates ∧
       x ∉ (get_pipeline_status env pfx st).1.s3_available_dates) := by
  unfold get_pipeline_status
  rcases hga : get_available_dates env ((st.push .connBQReq).push .connS3Req) 30
    with ⟨ga, st2⟩
  cases ga
  case error => simp [test_connections, hga]
  case ok bqDates =>
    rcases hla : list_available_dates env pfx st2 30 with ⟨s3Dates, st3⟩
    simp [test_connections, hga, hla, List.mem_filter]

/-- **C9 (code bug).** With a bucket containing exactly the day partition
`year=2024/month=01/day=15`, the sink listing returns the empty list: the
`Delimiter='/'` request groups keys at the first `'/'` after the prefix, so
only `year=2024/` reaches the parsing loop, whose `month=`/`day=` lookups
fail, and every entry is skipped. -/
theorem c9_list_dates_returns_nothing :
    (list_available_dates envW "bronze/ga4" stOneDay 100).1 = [] ∧
    commonPrefixes "bronze/ga4/events/" stOneDay.objects
      = ["bronze/ga4/events/year=2024/"] := by
  constructor
  · rfl
  · rfl

/-- **C6 counterexample.** With a source whose table listing raises and a
sink that has data: the report leaves the sink's date set empty as well,
and no sink listing call is ever attempted (no `listObjReq` in the trace),
so the sink set does not hold any "successfully fetched" dates. -/
theorem c6_single_handler_counterexample :
    (get_pipeline_status envBqListFail "bronze/ga4" stOneDay).1.bigquery_available_dates
        = [] ∧
    (get_pipeline_status envBqListFail "bronze/ga4" stOneDay).1.s3_available_dates = [] ∧
    (get_pipeline_status envBqListFail "bronze/ga4" stOneDay).1.missing_dates = [] ∧
    Ev.listObjReq ∉ (get_pipeline_status envBqListFail "bronze/ga4" stOneDay).2.trace := by
  refine ⟨rfl, rfl, rfl, ?_⟩
  decide

/-- **C6 (amended).** `get_pipeline_status` is total (it never raises), but a
single handler wraps both listings: if the source listing raises, the sink
listing is never attempted and all three date lists stay empty; the report
is exactly the connectivity flags plus empty lists, and the trace gains only
the two connection probes and the failed table-listing call. -/
theorem c6_status_degrades_jointly (env : Env) (pfx : String) (st : PState)
    (msg : String) (hbq : env.bqTables (st.trace.length + 2) = .error msg) :
    get_pipeline_status env pfx st =
      (⟨env.bqConn st.trace.length, env.s3Conn (st.trace.length + 1), [], [], []⟩,
       ⟨st.objects, Ev.listTablesReq :: Ev.connS3Req :: Ev.connBQReq :: st.trace⟩) := by
  unfold get_pipeline_status test_connections get_available_dates
  simp only [PState.push, PState.time, List.length_cons]
  rw [hbq]

/-- **C6 amended witness.** Concrete degraded status call. -/
theorem c6_status_degrades_jointly_witness :
    envBqListFail.bqTables (stOneDay.trace.length + 2) = .error "list_tables failed" ∧
    get_pipeline_status envBqListFail "bronze/ga4" stOneDay =
      (⟨envBqListFail.bqConn stOneDay.trace.length,
        envBqListFail.s3Conn (stOneDay.trace.length + 1), [], [], []⟩,
       ⟨stOneDay.objects,
        Ev.listTablesReq :: Ev.connS3Req :: Ev.connBQReq :: stOneDay.trace⟩) :=
  ⟨rfl, c6_status_degrades_jointly envBqListFail "bronze/ga4" stOneDay
    "list_tables failed" rfl⟩

/-- **C3.** For every date, every skip flag and every behaviour of source and
sink (the model is total, so `run_daily` never raises), the returned result
satisfies exactly one of the three outcome variants: fresh success
(success, not skipped, sink location set), skip (success and skipped), or
failure (no success, non-null error). -/
theorem c3_run_daily_exactly_one_outcome (env : Env) (pfx : String) (st : PState)
    (date : String) (skipE : Bool) :
    (((run_daily env pfx st date skipE).1.success = true ∧
      (run_daily env pfx st date skipE).1.skipped = false ∧
      (run_daily env pfx st date skipE).1.s3_key.isSome = true) ∨
     ((run_daily env pfx st date skipE).1.success = true ∧
      (run_daily env pfx st date skipE).1.skipped = true) ∨
     ((run_daily env pfx st date skipE).1.success = false ∧
      (run_daily env pfx st date skipE).1.error.isSome = true)) ∧
    ¬(((run_daily env pfx st date skipE).1.success = true ∧
       (run_daily env pfx st date skipE).1.skipped = false ∧
       (run_daily env pfx st date skipE).1.s3_key.isSome = true) ∧
      ((run_daily env pfx st date skipE).1.success = true ∧
       (run_daily env pfx st date skipE).1.skipped = true)) ∧
    ¬(((run_daily env pfx st date skipE).1.success = true ∧
       (run_daily env pfx st date skipE).1.skipped = false ∧
       (run_daily env pfx st date skipE).1.s3_key.isSome = true) ∧
      ((run_daily env pfx st date skipE).1.success = false ∧
       (run_daily env pfx st date skipE).1.error.isSome = true)) ∧
    ¬(((run_daily env pfx st date skipE).1.success = true ∧
       (run_daily env pfx st date skipE).1.skipped = true) ∧
      ((run_daily env pfx st date skipE).1.success = false ∧
       (run_daily env pfx st date skipE).1.error.isSome = true)) := by
  unfold run_daily
  split
  · simp
  · simp
  · split
    · simp
    · split
      case isTrue => simp
      case isFalse hn =>
        dsimp only
        split
        · simp
        case h_2 k st3 heq =>
          obtain ⟨key, -, rfl, -⟩ := upload_events_ok hn heq
          simp

/-- **C4.** When the skip check does not fire: a source returning an empty
extraction gives the benign NO_DATA outcome — success=false,
error="No data found", no records, no sink location, and no data upload is
attempted (no new `putDataReq` in the trace) — whereas a source that raises
gives the FAILED outcome with the raised message as the error; neither
outcome is a raised exception (the model is total). -/
theorem c4_no_data_vs_raised (env : Env) (pfx : String) (st : PState)
    (date : String) (skipE : Bool)
    (hreach : skipE = true → (check_exists env pfx st date).1 = Except.ok false) :
    ((∀ t, env.extract t date = .ok 0) →
      (run_daily env pfx st date skipE).1
          = ⟨date, false, 0, none, some "No data found", false⟩ ∧
      (∀ k, Ev.putDataReq k ∈ (run_daily env pfx st date skipE).2.trace →
        Ev.putDataReq k ∈ st.trace)) ∧
    (∀ m, (∀ t, env.extract t date = .error m) →
      (run_daily env pfx st date skipE).1 = ⟨date, false, 0, none, some m, false⟩) := by
  cases hsk : skipE
  · refine ⟨fun hemp => ⟨?_, ?_⟩, fun m hraise => ?_⟩
    · simp [run_daily, hemp]
    · intro k hk
      simp only [run_daily, hemp] at hk
      simp [PState.push] at hk
      exact hk
    · simp [run_daily, hraise]
  · rcases hch : check_exists env pfx st date with ⟨cr, st1⟩
    have hcr : cr = Except.ok false := by
      have := hreach hsk
      rw [hch] at this
      exact this
    subst hcr
    obtain ⟨hobj, htr⟩ := check_exists_state hch
    refine ⟨fun hemp => ⟨?_, ?_⟩, fun m hraise => ?_⟩
    · simp [run_daily, hch, hemp]
    · intro k hk
      simp only [run_daily, hch, hemp] at hk
      simp [PState.push] at hk
      rcases htr with htr | ⟨key, htr⟩
      · rwa [htr] at hk
      · rw [htr] at hk
        simp at hk
        exact hk
    · simp [run_daily, hch, hraise]

/-- **C4 witness.** An empty source and a raising source at a concrete date. -/
theorem c4_no_data_vs_raised_witness :
    (true = true → (check_exists envEmptySrc "bronze/ga4" stEmpty "2024-01-15").1
        = Except.ok false) ∧
    (((∀ t, envEmptySrc.extract t "2024-01-15" = .ok 0) →
      (run_daily envEmptySrc "bronze/ga4" stEmpty "2024-01-15" true).1
          = ⟨"2024-01-15", false, 0, none, some "No data found", false⟩ ∧
      (∀ k, Ev.putDataReq k ∈
          (run_daily envEmptySrc "bronze/ga4" stEmpty "2024-01-15" true).2.trace →
        Ev.putDataReq k ∈ stEmpty.trace)) ∧
    (∀ m, (∀ t, envEmptySrc.extract t "2024-01-15" = .error m) →
      (run_daily envEmptySrc "bronze/ga4" stEmpty "2024-01-15" true).1
          = ⟨"2024-01-15", false, 0, none, some m, false⟩)) :=
  ⟨fun _ => by decide,
   c4_no_data_vs_raised envEmptySrc "bronze/ga4" stEmpty "2024-01-15" true
     (fun _ => by decide)⟩

/-- **C7.** When the day reaches the load phase (skip check does not fire,
source returns `n ≠ 0` rows): whatever the metadata-upload behaviour — in
particular when every metadata write raises — a successful data upload still
yields success=true with the data key as sink location and
records_extracted = n (the metadata failure is swallowed); a failing data
upload instead yields the FAILED outcome carrying the raised message. -/
theorem c7_metadata_failure_swallowed (env : Env) (pfx : String) (st : PState)
    (date : String) (skipE : Bool) (n : Nat) (key : String)
    (hreach : skipE = true → (check_exists env pfx st date).1 = Except.ok false)
    (hx : ∀ t, env.extract t date = .ok n) (hn : n ≠ 0)
    (hkey : s3KeyFor pfx date = .ok key) :
    ((∀ t, env.putData t key = none) →
      (run_daily env pfx st date skipE).1.success = true ∧
      (run_daily env pfx st date skipE).1.s3_key = some key ∧
      (run_daily env pfx st date skipE).1.records_extracted = n) ∧
    (∀ em, (∀ t, env.putData t key = some em) →
      (run_daily env pfx st date skipE).1.success = false ∧
      (run_daily env pfx st date skipE).1.error = some em ∧
      (run_daily env pfx st date skipE).1.records_extracted = n) := by
  have hupload : ∀ st2 : PState,
      ((∀ t, env.putData t key = none) → ∃ st3,
        upload_events env pfx st2 n date = (.ok (some key), st3)) ∧
      (∀ em, (∀ t, env.putData t key = some em) → ∃ st3,
        upload_events env pfx st2 n date = (.error em, st3)) := by
    intro st2
    constructor
    · intro hput
      unfold upload_events
      rw [if_neg hn, hkey]
      dsimp only
      rw [hput]
      cases env.putMeta (PState.time ⟨key :: (st2.push (Ev.putDataReq key)).objects,
          (st2.push (Ev.putDataReq key)).trace⟩) (metaKeyOf key) <;>
        exact ⟨_, rfl⟩
    · intro em hput
      unfold upload_events
      rw [if_neg hn, hkey]
      dsimp only
      rw [hput]
      exact ⟨_, rfl⟩
  cases hsk : skipE
  · refine ⟨fun hput => ?_, fun em hput => ?_⟩
    · obtain ⟨st3, hup⟩ := (hupload (st.push (.extractReq date))).1 hput
      simp [run_daily, hx, hn, hup]
    · obtain ⟨st3, hup⟩ := (hupload (st.push (.extractReq date))).2 em hput
      simp [run_daily, hx, hn, hup]
  · rcases hch : check_exists env pfx st date with ⟨cr, st1⟩
    have hcr : cr = Except.ok false := by
      have := hreach hsk
      rw [hch] at this
      exact this
    subst hcr
    refine ⟨fun hput => ?_, fun em hput => ?_⟩
    · obtain ⟨st3, hup⟩ := (hupload (st1.push (.extractReq date))).1 hput
      simp [run_daily, hch, hx, hn, hup]
    · obtain ⟨st3, hup⟩ := (hupload (st1.push (.extractReq date))).2 em hput
      simp [run_daily, hch, hx, hn, hup]

/-- **C7 witness.** The metadata sink always raises, yet the concrete day
run succeeds with the data key; with a failing data upload it fails. -/
theorem c7_metadata_failure_swallowed_witness :
    (true = true → (check_exists envMetaFail "bronze/ga4" stEmpty "2024-01-15").1
        = Except.ok false) ∧
    (((∀ t, envMetaFail.putData t
          "bronze/ga4/events/year=2024/month=01/day=15/data.parquet" = none) →
      (run_daily envMetaFail "bronze/ga4" stEmpty "2024-01-15" true).1.success = true ∧
      (run_daily envMetaFail "bronze/ga4" stEmpty "2024-01-15" true).1.s3_key
          = some "bronze/ga4/events/year=2024/month=01/day=15/data.parquet" ∧
      (run_daily envMetaFail "bronze/ga4" stEmpty "2024-01-15" true).1.records_extracted
          = 5) ∧
    (∀ em, (∀ t, envMetaFail.putData t
          "bronze/ga4/events/year=2024/month=01/day=15/data.parquet" = some em) →
      (run_daily envMetaFail "bronze/ga4" stEmpty "2024-01-15" true).1.success = false ∧
      (run_daily envMetaFail "bronze/ga4" stEmpty "2024-01-15" true).1.error = some em ∧
      (run_daily envMetaFail "bronze/ga4" stEmpty "2024-01-15" true).1.records_extracted
          = 5)) :=
  ⟨fun _ => by decide,
   c7_metadata_failure_swallowed envMetaFail "bronze/ga4" stEmpty "2024-01-15" true 5
     "bronze/ga4/events/year=2024/month=01/day=15/data.parquet"
     (fun _ => by decide) (fun _ => rfl) (by decide) (by decide)⟩

/-- Under an honest sink, a day whose data key is already stored is skipped:
the run returns the SKIPPED outcome and only issues the existence probe. -/
theorem run_daily_skips (env : Env) (pfx : String) (st : PState) (d key : String)
    (hh : ∀ t k, env.head t k = .honest)
    (hkey : s3KeyFor pfx d = .ok key) (hmem : key ∈ st.objects) :
    run_daily env pfx st d true =
      (⟨d, true, 0, none, none, true⟩, st.push (.headReq key)) := by
  have hch := @check_exists_honest env pfx st d key hh hkey
  simp [run_daily, hch, hmem]

/-- Under an honest sink, a successful `run_daily` (fresh upload or skip)
leaves the day's data key present in the object store. -/
theorem run_daily_success_key (env : Env) (pfx : String) (st : PState) (d : String)
    {r1 : DailyResult} {st1 : PState}
    (h1 : run_daily env pfx st d true = (r1, st1))
    (hh : ∀ t k, env.head t k = .honest) (hs : r1.success = true) :
    ∃ key, s3KeyFor pfx d = .ok key ∧ key ∈ st1.objects := by
  unfold run_daily at h1
  rw [if_pos rfl] at h1
  rcases hch : check_exists env pfx st d with ⟨cr, stc⟩
  rw [hch] at h1
  rcases cr with msg | b
  · try dsimp only at h1
    rw [Prod.mk.injEq] at h1
    obtain ⟨rfl, rfl⟩ := h1
    simp at hs
  · cases b
    · -- not present: extraction path
      try dsimp only at h1
      split at h1
      · rw [Prod.mk.injEq] at h1
        obtain ⟨rfl, rfl⟩ := h1
        simp at hs
      · split at h1
        · rw [Prod.mk.injEq] at h1
          obtain ⟨rfl, rfl⟩ := h1
          simp at hs
        case isFalse hn =>
          try dsimp only at h1
          split at h1
          · rw [Prod.mk.injEq] at h1
            obtain ⟨rfl, rfl⟩ := h1
            simp at hs
          case h_2 k st3 heq =>
            obtain ⟨key, hkey, rfl, hmemk⟩ := upload_events_ok hn heq
            rw [Prod.mk.injEq] at h1
            obtain ⟨rfl, rfl⟩ := h1
            exact ⟨key, hkey, hmemk⟩
    · -- already present: skip path
      try dsimp only at h1
      rw [Prod.mk.injEq] at h1
      obtain ⟨rfl, rfl⟩ := h1
      unfold check_exists at hch
      split at hch
      · simp at hch
      case h_2 key hkey =>
        rw [hh] at hch
        try dsimp only at hch
        rw [Prod.mk.injEq] at hch
        obtain ⟨hdec, rfl⟩ := hch
        refine ⟨key, hkey, ?_⟩
        have : key ∈ st.objects := by
          have := congrArg (fun x : Except String Bool =>
            match x with | .ok b => b | .error _ => false) hdec
          simpa using this
        simpa [PState.push] using this

/-- **C5 counterexample.** With an honest, initially empty sink and a source
that always returns an empty DataFrame, the first `run_daily(d, true)`
uploads nothing, so the second call is *not* skipped and re-extracts: the
trace holds two extraction calls for the day. -/
theorem c5_second_call_not_skipped :
    (run_daily envEmptySrc "bronze/ga4"
      (run_daily envEmptySrc "bronze/ga4" stEmpty "2024-01-15" true).2
      "2024-01-15" true).1.skipped = false ∧
    ((run_daily envEmptySrc "bronze/ga4"
      (run_daily envEmptySrc "bronze/ga4" stEmpty "2024-01-15" true).2
      "2024-01-15" true).2.trace.count (Ev.extractReq "2024-01-15")) = 2 := by
  constructor
  · rfl
  · rfl

/-- **C5 (amended).** Under an honest sink, if the first
`run_daily(d, skipExisting=true)` returns success=true (fresh upload or
skip), then the second call yields the skip outcome — skipped=true,
success=true — and performs no extraction (the count of extraction calls in
the trace is unchanged).  When the first call fails (no data or a raised
source error) nothing was uploaded and the second call re-extracts. -/
theorem c5_second_call_skips_after_success (env : Env) (pfx : String) (st : PState)
    (d : String) (hh : ∀ t k, env.head t k = .honest)
    (hs : (run_daily env pfx st d true).1.success = true) :
    (run_daily env pfx (run_daily env pfx st d true).2 d true).1.skipped = true ∧
    (run_daily env pfx (run_daily env pfx st d true).2 d true).1.success = true ∧
    (run_daily env pfx (run_daily env pfx st d true).2 d true).2.trace.count
        (Ev.extractReq d)
      = (run_daily env pfx st d true).2.trace.count (Ev.extractReq d) := by
  rcases h1 : run_daily env pfx st d true with ⟨r1, st1⟩
  rw [h1] at hs
  dsimp only at hs
  obtain ⟨key, hkey, hmem⟩ := run_daily_success_key env pfx st d h1 hh hs
  have h2 := run_daily_skips env pfx st1 d key hh hkey hmem
  dsimp only
  rw [h2]
  refine ⟨rfl, rfl, ?_⟩
  simp [PState.push]

/-- **C5 amended witness.** Concrete successful run followed by a skip. -/
theorem c5_second_call_skips_after_success_witness :
    (∀ t k, envW.head t k = .honest) ∧
    (run_daily envW "bronze/ga4" stEmpty "2024-01-15" true).1.success = true ∧
    ((run_daily envW "bronze/ga4"
        (run_daily envW "bronze/ga4" stEmpty "2024-01-15" true).2 "2024-01-15" true).1.skipped = true ∧
     (run_daily envW "bronze/ga4"
        (run_daily envW "bronze/ga4" stEmpty "2024-01-15" true).2 "2024-01-15" true).1.success = true ∧
     (run_daily envW "bronze/ga4"
        (run_daily envW "bronze/ga4" stEmpty "2024-01-15" true).2 "2024-01-15" true).2.trace.count
          (Ev.extractReq "2024-01-15")
       = (run_daily envW "bronze/ga4" stEmpty "2024-01-15" true).2.trace.count
          (Ev.extractReq "2024-01-15")) :=
  ⟨fun _ _ => rfl, by decide,
   c5_second_call_skips_after_success envW "bronze/ga4" stEmpty "2024-01-15"
     (fun _ _ => rfl) (by decide)⟩

/-- **C1.** For every `start <= end` and every behaviour of source and sink,
`backfill` returns a report (the loop never aborts: per-day outcomes are
contained day-by-day) in which the three day lists partition the
chronological day range of `[start, end]`: their lengths sum to
`total_days`, which is the number of calendar days in the range; some tag
assignment realises each list as the in-order selection of its tag from the
(duplicate-free) range, so every calendar day lands in exactly one list and
days appear chronologically across the three lists collectively. -/
theorem c1_backfill_report_partition (env : Env) (pfx : String) (st : PState)
    (startS endS : String) (skipE : Bool) (s e : Date)
    (hs : parseDate startS = some s) (he : parseDate endS = some e)
    (hle : dateLeB s e = true) :
    ∃ rep st' tags,
      backfill env pfx st startS endS skipE = (.ok rep, st') ∧
      rep.successful_days.length + rep.skipped_days.length + rep.failed_days.length
        = rep.total_days ∧
      rep.total_days = ((dateRange s e).map formatDate).length ∧
      tags.length = ((dateRange s e).map formatDate).length ∧
      rep.successful_days
        = pickTag .ds (((dateRange s e).map formatDate).zip tags) ∧
      rep.skipped_days
        = pickTag .dk (((dateRange s e).map formatDate).zip tags) ∧
      rep.failed_days.map Prod.fst
        = pickTag .df (((dateRange s e).map formatDate).zip tags) ∧
      ((dateRange s e).map formatDate).Nodup := by
  obtain ⟨hvs, hys⟩ := parseDate_valid hs
  obtain ⟨hve, hye⟩ := parseDate_valid he
  have hcmp : dateLtB e s = false := dateLtB_false_of_dateLeB hle
  rcases hbg : backfillGo env pfx skipE e (rank e + 1) s st with ⟨acc, st'⟩
  obtain ⟨tags, hlen, hsu, hsk, hfl⟩ :=
    backfillGo_partition env pfx skipE e (rank e + 1) s st
  rw [hbg] at hsu hsk hfl
  dsimp only at hsu hsk hfl
  have hrl := rangeGo_length e hve (rank e + 1) s hvs (by omega)
  rw [if_pos hle] at hrl
  simp only [dateRange]
  have hmaplen : ((rangeGo e (rank e + 1) s).map formatDate).length
      = toOrd e - toOrd s + 1 := by
    rw [List.length_map]
    exact hrl
  have hziplen : (((rangeGo e (rank e + 1) s).map formatDate).zip tags).length
      = toOrd e - toOrd s + 1 := by
    rw [List.length_zip, hmaplen, hlen, hrl]
    simp
  have hsum := pickTag_length_sum (((rangeGo e (rank e + 1) s).map formatDate).zip tags)
  refine ⟨⟨startS, endS, toOrd e - toOrd s + 1, acc.succ, acc.fail, acc.skip, acc.records⟩,
    st', tags, ?_, ?_, ?_, ?_, hsu, hsk, hfl, ?_⟩
  · simp only [backfill, hs, he, hcmp, Bool.false_eq_true, if_false, hbg]
  · have hfail_len : acc.fail.length
        = (pickTag .df (((rangeGo e (rank e + 1) s).map formatDate).zip tags)).length := by
      rw [← hfl, List.length_map]
    have hsucc_len : acc.succ.length
        = (pickTag .ds (((rangeGo e (rank e + 1) s).map formatDate).zip tags)).length := by
      rw [hsu]
    have hskip_len : acc.skip.length
        = (pickTag .dk (((rangeGo e (rank e + 1) s).map formatDate).zip tags)).length := by
      rw [hsk]
    dsimp only
    omega
  · exact hmaplen.symm
  · rw [hmaplen, hlen]
    exact hrl
  · exact dateRange_map_nodup s e hvs hve hye

/-- **C1 witness.** A concrete three-day backfill against the coöperative
environment. -/
theorem c1_backfill_report_partition_witness :
    parseDate "2024-01-01" = some ⟨2024, 1, 1⟩ ∧
    parseDate "2024-01-03" = some ⟨2024, 1, 3⟩ ∧
    dateLeB ⟨2024, 1, 1⟩ ⟨2024, 1, 3⟩ = true ∧
    ∃ rep st' tags,
      backfill envW "bronze/ga4" stEmpty "2024-01-01" "2024-01-03" true
        = (.ok rep, st') ∧
      rep.successful_days.length + rep.skipped_days.length + rep.failed_days.length
        = rep.total_days ∧
      rep.total_days
        = ((dateRange ⟨2024, 1, 1⟩ ⟨2024, 1, 3⟩).map formatDate).length ∧
      tags.length
        = ((dateRange ⟨2024, 1, 1⟩ ⟨2024, 1, 3⟩).map formatDate).length ∧
      rep.successful_days = pickTag .ds
        (((dateRange ⟨2024, 1, 1⟩ ⟨2024, 1, 3⟩).map formatDate).zip tags) ∧
      rep.skipped_days = pickTag .dk
        (((dateRange ⟨2024, 1, 1⟩ ⟨2024, 1, 3⟩).map formatDate).zip tags) ∧
      rep.failed_days.map Prod.fst = pickTag .df
        (((dateRange ⟨2024, 1, 1⟩ ⟨2024, 1, 3⟩).map formatDate).zip tags) ∧
      ((dateRange ⟨2024, 1, 1⟩ ⟨2024, 1, 3⟩).map formatDate).Nodup :=
  ⟨by decide, by decide, by decide,
   c1_backfill_report_partition envW "bronze/ga4" stEmpty "2024-01-01" "2024-01-03"
     true ⟨2024, 1, 1⟩ ⟨2024, 1, 3⟩ (by decide) (by decide) (by decide)⟩

end Pipeline
